import Mathlib

/-!
Shallow embedding of `src/markdown_to_html.py` (class `MarkdownToHTML`).

Text is modelled as `List Char`.  The front-matter regex
`^---[\s\S]+?---` (compiled without `re.MULTILINE`, so `^` anchors only at
position 0 and `findall`/`sub` see at most one match) is modelled by
`matchBlock`: the text must start with `---`, and the lazy `[\s\S]+?`
takes the shortest non-empty middle that is followed by `---`.
Python `str.split`, `str.strip`, dict-comprehension insertion and the
f-string that builds the metadata table are each embedded directly below.
`parse_markdown` returns `Option`: `none` models an uncaught exception.
-/

def dashes : List Char := ['-', '-', '-']

/-- The first three characters of the list are `-`, `-`, `-`. -/
def startsDash3 : List Char → Bool
  | '-' :: '-' :: '-' :: _ => true
  | _ => false

/-- Smallest `k ≥ 1` such that `l.drop k` starts with `---`: the lazy
`[\s\S]+?` of the front-matter regex scans for the earliest closing `---`
after at least one middle character. -/
def findClose : List Char → Option Nat
  | [] => none
  | _ :: cs => if startsDash3 cs then some 1 else (findClose cs).map (· + 1)

/-- The match of `re.findall(r"^---[\s\S]+?---", s)` (if any) together with
the rest of the text; `re.sub` with the same pattern removes exactly this
match, leaving the second component. -/
def matchBlock (s : List Char) : Option (List Char × List Char) :=
  match s with
  | '-' :: '-' :: '-' :: tail =>
      match findClose tail with
      | some k => some ('-' :: '-' :: '-' :: tail.take (k + 3), tail.drop (k + 3))
      | none => none
  | _ => none

/-- Python `str.split(sep)` for a one-character separator: always returns a
non-empty list of segments, `[""]` on the empty string. -/
def splitOnChar (sep : Char) : List Char → List (List Char)
  | [] => [[]]
  | c :: cs =>
      if c = sep then [] :: splitOnChar sep cs
      else
        match splitOnChar sep cs with
        | [] => [[c]]
        | l :: ls => (c :: l) :: ls

/-- Python `str.strip()`: drop whitespace from both ends. -/
def strip (l : List Char) : List Char :=
  ((l.dropWhile Char.isWhitespace).reverse.dropWhile Char.isWhitespace).reverse

/-- One front-matter line, as in the dict comprehension of
`parse_markdown`: `(key.split(":")[0].strip(), key.split(":")[-1].strip())`. -/
def lineToPair (l : List Char) : List Char × List Char :=
  (strip ((splitOnChar ':' l).headD []), strip ((splitOnChar ':' l).getLastD []))

/-- Python dict assignment `d[k] = v`: overwrite the value in place if the
key is present (keeping its original position), otherwise append. -/
def insertKV (m : List (List Char × List Char)) (k v : List Char) :
    List (List Char × List Char) :=
  match m with
  | [] => [(k, v)]
  | p :: rest => if p.1 = k then (p.1, v) :: rest else p :: insertKV rest k v

/-- The dict comprehension of `parse_markdown`: iterate over the split
lines of the matched block, skip the lines equal to `---`, and insert the
`(key, value)` pair of every other line with dict semantics. -/
def buildMeta (lines : List (List Char)) : List (List Char × List Char) :=
  (lines.filter (fun l => l ≠ dashes)).foldl
    (fun m l => insertKV m (lineToPair l).1 (lineToPair l).2) []

/-- The separator row `"--- |" * len(metadata.keys())`. -/
def sepRow (n : Nat) : List Char := (List.replicate n ("--- |".data)).flatten

/-- `MarkdownToHTML.parse_markdown` on the file content: extract the
front-matter match, build the metadata dict, and prepend the table
`f"{headers}\n{sep}\n{values}\n---\n"` to the remaining text.  When the
dict is empty, `max(map(len, metadata))` raises `ValueError` (modelled as
`none`); when no match exists the text passes through unchanged. -/
def parse_markdown (s : List Char) : Option (List Char) :=
  match matchBlock s with
  | none => some s
  | some (block, rest) =>
      match buildMeta (splitOnChar '\n' block) with
      | [] => none
      | m :: ms =>
          some (List.intercalate ['|'] ((m :: ms).map Prod.fst) ++
            '\n' :: (sepRow (m :: ms).length ++
              '\n' :: (List.intercalate ['|'] ((m :: ms).map Prod.snd) ++
                '\n' :: ('-' :: '-' :: '-' :: '\n' :: rest))))

/-- Claim C1: on an input consisting only of the two delimiter lines and a
body, the metadata dict is empty and `parse_markdown` raises (`none`)
instead of returning the text minus the delimiter block. -/
theorem C1_crash : parse_markdown ("---\n---\nbody".data) = none := rfl

/-- Claim C3 (amended): whenever the leading regex pattern
`---`, at least one character, `---` is absent — in particular for an
unterminated opening delimiter — extraction returns the text unchanged and
does not raise. -/
theorem C3_amended (s : List Char) (h : matchBlock s = none) :
    parse_markdown s = some s := by
  simp only [parse_markdown, h]

theorem C3_amended_witness :
    matchBlock ("---\nabc".data) = none ∧
      parse_markdown ("---\nabc".data) = some ("---\nabc".data) :=
  ⟨by decide, C3_amended ("---\nabc".data) (by decide)⟩

/-- A leading front-matter block in the sense of the specification text:
the first line is exactly `---` and some later line is exactly `---`.
(Modelled from the spec wording of claim C3, for comparison with the
regex-based behaviour of the code.) -/
def specLineBlock (s : List Char) : Bool :=
  match splitOnChar '\n' s with
  | [] => false
  | first :: rest => first = dashes && rest.any (fun l => l = dashes)

/-- Claim C3 (counterexample): the input `---a---` does not begin with a
front-matter block delimited by a line of three hyphens and a closing line
of three hyphens, yet extraction does not return it unchanged: the regex
needs no line boundaries around the delimiters. -/
theorem C3_counterexample :
    specLineBlock ("---a---".data) = false ∧
      parse_markdown ("---a---".data) ≠ some ("---a---".data) := by
  decide

/-- Claim C4: a document with front-matter keys `title: Foo` and
`date: 2024-01-01` is rewritten so that the processed text begins with the
three-row table and rule line, followed by everything after the matched
block. -/
theorem C4_table (body : List Char) :
    parse_markdown (("---\ntitle: Foo\ndate: 2024-01-01\n---".data) ++ body) =
      some (("title|date\n--- |--- |\nFoo|2024-01-01\n---\n".data) ++ body) := rfl

/-- Claim C7: extraction is idempotent on its own output: if a text was
produced by extraction and contains no remaining leading delimiter block,
a second extraction returns it unchanged. -/
theorem C7_idempotent (t u : List Char) (h1 : parse_markdown t = some u)
    (h2 : matchBlock u = none) : parse_markdown u = some u := by
  simp only [parse_markdown, h2]

theorem C7_idempotent_witness :
    (parse_markdown ("---\nk2: w\n---\nQ".data) =
        some ("k2\n--- |\nw\n---\n\nQ".data) ∧
      matchBlock ("k2\n--- |\nw\n---\n\nQ".data) = none) ∧
      parse_markdown ("k2\n--- |\nw\n---\n\nQ".data) =
        some ("k2\n--- |\nw\n---\n\nQ".data) :=
  ⟨⟨by decide, by decide⟩,
    C7_idempotent ("---\nk2: w\n---\nQ".data) ("k2\n--- |\nw\n---\n\nQ".data)
      (by decide) (by decide)⟩

/-- The `(key, value)` pairs the dict comprehension iterates over, in line
order: the split lines of the block minus the `---` lines. -/
def pairsOf (lines : List (List Char)) : List (List Char × List Char) :=
  (lines.filter (fun l => l ≠ dashes)).map lineToPair

/-- Dict lookup on the ordered association list. -/
def lookupKV (k : List Char) : List (List Char × List Char) → Option (List Char)
  | [] => none
  | p :: rest => if p.1 = k then some p.2 else lookupKV k rest

/-- The value of the last pair of the list whose key is `k`, if any: the
first hit when scanning the reversed list, i.e. the value assigned by the
last occurrence of a duplicated key. -/
def lastAssign (k : List Char) (ps : List (List Char × List Char)) :
    Option (List Char) :=
  lookupKV k ps.reverse

/-- Key list deduplicated keeping first occurrences, relative to the keys
already `seen`. -/
def newKeys (seen : List (List Char)) : List (List Char) → List (List Char)
  | [] => []
  | k :: ks => if k ∈ seen then newKeys seen ks else k :: newKeys (seen ++ [k]) ks

theorem lookupKV_append (k : List Char) (l1 l2 : List (List Char × List Char)) :
    lookupKV k (l1 ++ l2) =
      match lookupKV k l1 with
      | some v => some v
      | none => lookupKV k l2 := by
  induction l1 with
  | nil => rfl
  | cons p rest ih =>
      by_cases hp : p.1 = k
      · simp [lookupKV, hp]
      · simp [lookupKV, hp, ih]

theorem map_fst_insertKV (m : List (List Char × List Char)) (k v : List Char) :
    (insertKV m k v).map Prod.fst =
      if k ∈ m.map Prod.fst then m.map Prod.fst else m.map Prod.fst ++ [k] := by
  induction m with
  | nil => simp [insertKV]
  | cons p rest ih =>
      by_cases hp : p.1 = k
      · simp [insertKV, hp]
      · simp only [insertKV, hp, if_false, List.map_cons, ih, List.mem_cons]
        by_cases hk : k ∈ rest.map Prod.fst
        · simp [hk, hp, Ne.symm hp]
        · simp [hk, hp, Ne.symm hp]

theorem lookupKV_insertKV (m : List (List Char × List Char)) (k2 v k : List Char) :
    lookupKV k (insertKV m k2 v) = if k2 = k then some v else lookupKV k m := by
  induction m with
  | nil =>
      by_cases h : k2 = k
      · simp [insertKV, lookupKV, h]
      · simp [insertKV, lookupKV, h]
  | cons p rest ih =>
      by_cases hp : p.1 = k2
      · by_cases h : k2 = k
        · have hpk : p.1 = k := hp.trans h
          simp [insertKV, lookupKV, hp, h, hpk]
        · have hpk : ¬ p.1 = k := fun e => h (hp.symm.trans e)
          simp [insertKV, lookupKV, hp, h, hpk]
      · by_cases hk : p.1 = k
        · have h : ¬ k2 = k := fun e => hp (hk.trans e.symm)
          have h2 : ¬ k = k2 := fun e => h e.symm
          simp [insertKV, lookupKV, hp, hk, h, h2]
        · simp [insertKV, lookupKV, hp, hk, ih]

theorem keys_foldl_insertKV (ps : List (List Char × List Char)) :
    ∀ acc : List (List Char × List Char),
      ((ps.foldl (fun m p => insertKV m p.1 p.2) acc).map Prod.fst) =
        acc.map Prod.fst ++ newKeys (acc.map Prod.fst) (ps.map Prod.fst) := by
  induction ps with
  | nil => intro acc; simp [newKeys]
  | cons p ps ih =>
      intro acc
      simp only [List.foldl_cons, List.map_cons, newKeys]
      rw [ih (insertKV acc p.1 p.2), map_fst_insertKV]
      by_cases h : p.1 ∈ acc.map Prod.fst
      · simp [h]
      · simp [h, List.append_assoc]

theorem lookupKV_foldl_insertKV (ps : List (List Char × List Char)) :
    ∀ (acc : List (List Char × List Char)) (k : List Char),
      lookupKV k (ps.foldl (fun m p => insertKV m p.1 p.2) acc) =
        match lastAssign k ps with
        | some v => some v
        | none => lookupKV k acc := by
  induction ps with
  | nil => intro acc k; rfl
  | cons p ps ih =>
      intro acc k
      simp only [List.foldl_cons]
      rw [ih (insertKV acc p.1 p.2) k]
      have hrev : lastAssign k (p :: ps) =
          match lastAssign k ps with
          | some v => some v
          | none => if p.1 = k then some p.2 else none := by
        unfold lastAssign
        rw [List.reverse_cons, lookupKV_append]
        cases lookupKV k ps.reverse with
        | some v => rfl
        | none => simp [lookupKV]
      rw [hrev]
      cases hl : lastAssign k ps with
      | some v => rfl
      | none =>
          rw [lookupKV_insertKV]
          by_cases hp : p.1 = k
          · simp [hp]
          · simp [hp]

theorem mem_of_mem_newKeys (ks : List (List Char)) :
    ∀ seen k, k ∈ newKeys seen ks → k ∉ seen ∧ k ∈ ks := by
  induction ks with
  | nil => intro seen k h; simp [newKeys] at h
  | cons k2 ks ih =>
      intro seen k h
      by_cases h2 : k2 ∈ seen
      · simp only [newKeys, h2, if_true] at h
        rcases ih seen k h with ⟨hs, hk⟩
        exact ⟨hs, List.mem_cons_of_mem _ hk⟩
      · simp only [newKeys, h2, if_false, List.mem_cons] at h
        rcases h with h | h
        · subst h; exact ⟨h2, List.mem_cons_self _ _⟩
        · rcases ih (seen ++ [k2]) k h with ⟨hs, hk⟩
          refine ⟨fun hmem => hs ?_, List.mem_cons_of_mem _ hk⟩
          exact List.mem_append_left _ hmem

theorem mem_newKeys_of_mem (ks : List (List Char)) :
    ∀ seen k, k ∈ ks → k ∉ seen → k ∈ newKeys seen ks := by
  induction ks with
  | nil => intro seen k h; simp at h
  | cons k2 ks ih =>
      intro seen k hk hs
      rcases List.mem_cons.mp hk with h | h
      · subst h
        simp only [newKeys, hs, if_false]
        exact List.mem_cons_self _ _
      · by_cases h2 : k2 ∈ seen
        · simp only [newKeys, h2, if_true]
          exact ih seen k h hs
        · simp only [newKeys, h2, if_false]
          by_cases he : k = k2
          · subst he; exact List.mem_cons_self _ _
          · refine List.mem_cons_of_mem _ (ih (seen ++ [k2]) k h ?_)
            intro hmem
            rcases List.mem_append.mp hmem with hm | hm
            · exact hs hm
            · exact he (List.mem_singleton.mp hm)

theorem nodup_newKeys (ks : List (List Char)) :
    ∀ seen, (newKeys seen ks).Nodup := by
  induction ks with
  | nil => intro seen; simp [newKeys]
  | cons k2 ks ih =>
      intro seen
      by_cases h2 : k2 ∈ seen
      · simp only [newKeys, h2, if_true]; exact ih seen
      · simp only [newKeys, h2, if_false, List.nodup_cons]
        refine ⟨fun hmem => ?_, ih (seen ++ [k2])⟩
        rcases mem_of_mem_newKeys ks (seen ++ [k2]) k2 hmem with ⟨hs, _⟩
        exact hs (List.mem_append_right _ (List.mem_singleton.mpr rfl))

theorem count_eq_one_of_nodup_mem (l : List (List Char)) (a : List Char)
    (hn : l.Nodup) (hm : a ∈ l) : l.count a = 1 := by
  induction l with
  | nil => simp at hm
  | cons b l ih =>
      rcases List.nodup_cons.mp hn with ⟨hb, hl⟩
      rcases List.mem_cons.mp hm with h | h
      · subst h
        simp [List.count_cons_self, List.count_eq_zero.mpr hb]
      · have hne : a ≠ b := by
          intro e; rw [e] at h; exact hb h
        rw [List.count_cons_of_ne hne, ih hl h]

theorem buildMeta_eq_foldl (ls : List (List Char)) :
    buildMeta ls = (pairsOf ls).foldl (fun m p => insertKV m p.1 p.2) [] := by
  unfold buildMeta pairsOf
  rw [List.foldl_map]

/-- Claim C2 (counterexample): for the front-matter block with lines
`a: 1`, `b: 2`, `a: 3`, the duplicated key `a` keeps the value of its last
occurrence but the column position of its first occurrence: the processed
text starts with header row `a|b` and value row `3|2`, not the `b|a` /
`2|3` that the claimed last-occurrence position would produce. -/
theorem C2_counterexample :
    parse_markdown ("---\na: 1\nb: 2\na: 3\n---\nZ".data) =
        some ("a|b\n--- |--- |\n3|2\n---\n\nZ".data) ∧
      ("a|b\n--- |--- |\n3|2\n---\n\nZ".data : List Char) ≠
        ("b|a\n--- |--- |\n2|3\n---\n\nZ".data) := by
  decide

/-- Claim C2 (amended): if a key appears on two lines of the block, the
metadata mapping contains it exactly once, its value is the one assigned
by its last occurrence, and the iteration order of the mapping is the
first-occurrence order of the keys (a Python dict keeps an overwritten key
at the position of its first insertion). -/
theorem C2_amended (ls : List (List Char)) (k : List Char)
    (h : 2 ≤ (((pairsOf ls).map Prod.fst).count k)) :
    ((buildMeta ls).map Prod.fst).count k = 1 ∧
      lookupKV k (buildMeta ls) = lastAssign k (pairsOf ls) ∧
      (buildMeta ls).map Prod.fst = newKeys [] ((pairsOf ls).map Prod.fst) := by
  have hkeys : (buildMeta ls).map Prod.fst
      = newKeys [] ((pairsOf ls).map Prod.fst) := by
    rw [buildMeta_eq_foldl, keys_foldl_insertKV (pairsOf ls) []]
    simp
  have hmem : k ∈ (pairsOf ls).map Prod.fst := by
    by_contra hmem
    rw [List.count_eq_zero.mpr hmem] at h
    omega
  refine ⟨?_, ?_, hkeys⟩
  · rw [hkeys]
    exact count_eq_one_of_nodup_mem _ _ (nodup_newKeys _ [])
      (mem_newKeys_of_mem _ [] k hmem (by simp))
  · rw [buildMeta_eq_foldl, lookupKV_foldl_insertKV]
    cases hl : lastAssign k (pairsOf ls) with
    | some v => rfl
    | none => rfl

theorem C2_amended_witness :
    2 ≤ (((pairsOf [dashes, "a: 1".data, "b: 2".data, "a: 3".data, dashes]).map
        Prod.fst).count ("a".data)) ∧
      (((buildMeta [dashes, "a: 1".data, "b: 2".data, "a: 3".data, dashes]).map
          Prod.fst).count ("a".data) = 1 ∧
        lookupKV ("a".data)
            (buildMeta [dashes, "a: 1".data, "b: 2".data, "a: 3".data, dashes]) =
          lastAssign ("a".data)
            (pairsOf [dashes, "a: 1".data, "b: 2".data, "a: 3".data, dashes]) ∧
        (buildMeta [dashes, "a: 1".data, "b: 2".data, "a: 3".data, dashes]).map
            Prod.fst =
          newKeys []
            ((pairsOf [dashes, "a: 1".data, "b: 2".data, "a: 3".data, dashes]).map
              Prod.fst)) :=
  ⟨by decide,
    C2_amended [dashes, "a: 1".data, "b: 2".data, "a: 3".data, dashes] ("a".data)
      (by decide)⟩

theorem splitOnChar_ne_nil (sep : Char) (l : List Char) : splitOnChar sep l ≠ [] := by
  cases l with
  | nil => simp [splitOnChar]
  | cons c cs =>
      by_cases h : c = sep
      · simp [splitOnChar, h]
      · simp only [splitOnChar]
        rw [if_neg h]
        cases h2 : splitOnChar sep cs <;> simp

theorem headD_splitOnChar (sep : Char) (l : List Char) :
    (splitOnChar sep l).headD [] = l.takeWhile (fun c => c != sep) := by
  induction l with
  | nil => rfl
  | cons c cs ih =>
      simp only [splitOnChar, List.takeWhile_cons]
      by_cases h : c = sep
      · simp [h]
      · rw [if_neg h]
        cases h2 : splitOnChar sep cs with
        | nil => exact absurd h2 (splitOnChar_ne_nil sep cs)
        | cons l2 ls2 =>
            rw [h2] at ih
            have ih2 : l2 = cs.takeWhile (fun c => c != sep) := by simpa using ih
            simp [h, ih2]

/-- The segment of the line after its last separator, the whole line when
the separator does not occur: the specification wording for the extracted
value (everything after the last colon). -/
def afterLastSep (sep : Char) : List Char → List Char
  | [] => []
  | c :: cs =>
      if sep ∈ cs then afterLastSep sep cs
      else if c = sep then cs
      else c :: afterLastSep sep cs

theorem afterLastSep_of_not_mem (sep : Char) (l : List Char) (h : sep ∉ l) :
    afterLastSep sep l = l := by
  induction l with
  | nil => rfl
  | cons c cs ih =>
      have h1 : ¬ c = sep := fun e => h (by rw [e]; exact List.mem_cons_self _ _)
      have h2 : sep ∉ cs := fun e => h (List.mem_cons_of_mem _ e)
      simp only [afterLastSep]
      rw [if_neg h2, if_neg h1, ih h2]

theorem splitOnChar_of_not_mem (sep : Char) (l : List Char) (h : sep ∉ l) :
    splitOnChar sep l = [l] := by
  induction l with
  | nil => rfl
  | cons c cs ih =>
      have h1 : ¬ c = sep := fun e => h (by rw [e]; exact List.mem_cons_self _ _)
      have h2 : sep ∉ cs := fun e => h (List.mem_cons_of_mem _ e)
      simp only [splitOnChar]
      rw [if_neg h1, ih h2]

theorem two_le_splitOnChar_length (sep : Char) (l : List Char) (h : sep ∈ l) :
    2 ≤ (splitOnChar sep l).length := by
  induction l with
  | nil => simp at h
  | cons c cs ih =>
      by_cases hc : c = sep
      · simp only [splitOnChar]
        rw [if_pos hc]
        cases h2 : splitOnChar sep cs with
        | nil => exact absurd h2 (splitOnChar_ne_nil sep cs)
        | cons a b => simp
      · have hcs : sep ∈ cs := by
          rcases List.mem_cons.mp h with h1 | h1
          · exact absurd h1.symm hc
          · exact h1
        cases h2 : splitOnChar sep cs with
        | nil => exact absurd h2 (splitOnChar_ne_nil sep cs)
        | cons a b =>
            have h3 := ih hcs
            rw [h2] at h3
            simp only [splitOnChar]
            rw [if_neg hc, h2]
            simpa using h3

theorem getLastD_splitOnChar (sep : Char) (l : List Char) :
    (splitOnChar sep l).getLastD [] = afterLastSep sep l := by
  induction l with
  | nil => rfl
  | cons c cs ih =>
      by_cases hc : c = sep
      · rw [show splitOnChar sep (c :: cs) = [] :: splitOnChar sep cs from by
          simp [splitOnChar, hc]]
        rw [List.getLastD_cons, ih]
        simp only [afterLastSep]
        by_cases hm : sep ∈ cs
        · rw [if_pos hm]
        · rw [if_neg hm, if_pos hc, afterLastSep_of_not_mem sep cs hm]
      · cases h2 : splitOnChar sep cs with
        | nil => exact absurd h2 (splitOnChar_ne_nil sep cs)
        | cons l2 ls2 =>
            rw [h2] at ih
            have hsplit : splitOnChar sep (c :: cs) = (c :: l2) :: ls2 := by
              simp only [splitOnChar]
              rw [if_neg hc, h2]
            rw [hsplit]
            simp only [afterLastSep]
            by_cases hm : sep ∈ cs
            · rw [if_pos hm]
              have hlen := two_le_splitOnChar_length sep cs hm
              rw [h2] at hlen
              cases ls2 with
              | nil => simp at hlen
              | cons a b =>
                  rw [← ih]
                  simp only [List.getLastD_cons]
            · rw [if_neg hm, if_neg hc]
              have h3 : splitOnChar sep cs = [cs] := splitOnChar_of_not_mem sep cs hm
              rw [h3] at h2
              injection h2 with e1 e2
              subst e1
              subst e2
              rw [afterLastSep_of_not_mem sep cs hm]
              rfl

/-- Claim C8: for a front-matter line (not the delimiter) containing a
colon, the extracted key is the segment before the first colon, stripped,
and the extracted value is the segment after the last colon, stripped. -/
theorem C8_colon (l : List Char) (h1 : l ≠ dashes) (h2 : ':' ∈ l) :
    lineToPair l =
      (strip (l.takeWhile (fun c => c != ':')), strip (afterLastSep ':' l)) := by
  unfold lineToPair
  rw [headD_splitOnChar, getLastD_splitOnChar]

theorem C8_colon_witness :
    (("time: 10:30".data : List Char) ≠ dashes ∧
        ':' ∈ ("time: 10:30".data : List Char)) ∧
      lineToPair ("time: 10:30".data) = ("time".data, "30".data) :=
  ⟨⟨by decide, by decide⟩, C8_colon ("time: 10:30".data) (by decide) (by decide)⟩

/-- Claim C10: a non-delimiter front-matter line with no colon still
produces a metadata entry: its key and value are both the stripped whole
line, and that key is present in the metadata mapping of any block whose
lines include it. -/
theorem C10_no_colon (l : List Char) (ls : List (List Char)) (h1 : l ∈ ls)
    (h2 : l ≠ dashes) (h3 : ':' ∉ l) :
    lineToPair l = (strip l, strip l) ∧
      strip l ∈ (buildMeta ls).map Prod.fst := by
  have hsplit : splitOnChar ':' l = [l] := splitOnChar_of_not_mem ':' l h3
  have hpair : lineToPair l = (strip l, strip l) := by
    unfold lineToPair
    rw [hsplit]
    rfl
  refine ⟨hpair, ?_⟩
  have hkeys : (buildMeta ls).map Prod.fst
      = newKeys [] ((pairsOf ls).map Prod.fst) := by
    rw [buildMeta_eq_foldl, keys_foldl_insertKV (pairsOf ls) []]
    simp
  have hf : l ∈ ls.filter (fun x => x ≠ dashes) :=
    List.mem_filter.mpr ⟨h1, by simp [h2]⟩
  have hp : lineToPair l ∈ pairsOf ls := List.mem_map_of_mem _ hf
  have hk : (lineToPair l).1 ∈ (pairsOf ls).map Prod.fst :=
    List.mem_map_of_mem Prod.fst hp
  have hmem : strip l ∈ (pairsOf ls).map Prod.fst := by
    rw [hpair] at hk
    exact hk
  rw [hkeys]
  exact mem_newKeys_of_mem ((pairsOf ls).map Prod.fst) [] (strip l) hmem (by simp)

theorem C10_no_colon_witness :
    (("author Bob".data : List Char) ∈ [dashes, "author Bob".data, dashes] ∧
        ("author Bob".data : List Char) ≠ dashes ∧
        ':' ∉ ("author Bob".data : List Char)) ∧
      (lineToPair ("author Bob".data) = ("author Bob".data, "author Bob".data) ∧
        ("author Bob".data : List Char) ∈
          (buildMeta [dashes, "author Bob".data, dashes]).map Prod.fst) :=
  ⟨⟨by decide, by decide, by decide⟩,
    C10_no_colon ("author Bob".data) [dashes, "author Bob".data, dashes]
      (by decide) (by decide) (by decide)⟩

/-- Claim C6 (counterexample): extracting the front-matter of
`---\na: b\n---\nx` produces a processed text that still contains the
three-hyphen delimiter string: the generated table ends with a literal
`---` rule line and its separator row contains `--- |`. -/
theorem C6_counterexample :
    parse_markdown ("---\na: b\n---\nx".data) =
        some ("a\n--- |\nb\n---\n\nx".data) ∧
      List.IsInfix dashes ("a\n--- |\nb\n---\n\nx".data) :=
  ⟨rfl, ⟨"a\n".data, " |\nb\n---\n\nx".data, by decide⟩⟩

/-- Claim C6 (amended): whenever extraction actually rewrites the text (a
front-matter table was produced), the processed text does contain the
three-hyphen delimiter string, introduced by the generated table's
trailing rule line; the delimiters are not absent from the output. -/
theorem C6_amended (t u : List Char) (h1 : parse_markdown t = some u)
    (h2 : u ≠ t) : List.IsInfix dashes u := by
  cases hm : matchBlock t with
  | none =>
      unfold parse_markdown at h1
      simp only [hm, Option.some.injEq] at h1
      exact absurd h1.symm h2
  | some pr =>
      obtain ⟨block, rest⟩ := pr
      unfold parse_markdown at h1
      simp only [hm] at h1
      cases hb : buildMeta (splitOnChar '\n' block) with
      | nil =>
          simp only [hb] at h1
          exact Option.noConfusion h1
      | cons m ms =>
          simp only [hb, Option.some.injEq] at h1
          refine ⟨List.intercalate ['|'] ((m :: ms).map Prod.fst) ++
              '\n' :: (sepRow (m :: ms).length ++
                '\n' :: (List.intercalate ['|'] ((m :: ms).map Prod.snd) ++ ['\n'])),
            '\n' :: rest, ?_⟩
          rw [← h1]
          simp [dashes]

theorem C6_amended_witness :
    (parse_markdown ("---\nk: v\n---\nZ".data) =
        some ("k\n--- |\nv\n---\n\nZ".data) ∧
      ("k\n--- |\nv\n---\n\nZ".data : List Char) ≠ ("---\nk: v\n---\nZ".data)) ∧
      List.IsInfix dashes ("k\n--- |\nv\n---\n\nZ".data) :=
  ⟨⟨by decide, by decide⟩,
    C6_amended ("---\nk: v\n---\nZ".data) ("k\n--- |\nv\n---\n\nZ".data)
      (by decide) (by decide)⟩

/-- A file path: containing directory plus file name, as combined by
`pathlib.Path(self.file.parent, f"{self.file.stem}.html")`. -/
structure PPath where
  dir : List Char
  name : List Char
  deriving DecidableEq

/-- Index of the first `.` in the list, if any. -/
def dotIdx : List Char → Option Nat
  | [] => none
  | c :: cs => if c = '.' then some 0 else (dotIdx cs).map (· + 1)

/-- `pathlib.PurePath.stem`: the final component without its suffix; the
suffix is `name[i:]` for `i = name.rfind('.')` only when
`0 < i < len(name) - 1`, otherwise the stem is the whole name. -/
def pstem (name : List Char) : List Char :=
  match dotIdx name.reverse with
  | none => name
  | some j =>
      if 0 < j ∧ j < name.length - 1 then (name.reverse.drop (j + 1)).reverse
      else name

/-- `self.html = Path(self.file.parent, f"{self.file.stem}.html")`. -/
def destOf (p : PPath) : PPath := PPath.mk p.dir (pstem p.name ++ (".html".data))

/-- Observable I/O events of a run, in program order. -/
inductive Ev where
  | readAsset (name : List Char)
  | statSource
  | readSource
  | network
  | writeFile (p : PPath)
  | raiseErr (msg : List Char)
  deriving DecidableEq

def Ev.isDiskOp : Ev → Bool
  | .readAsset _ => true
  | .statSource => true
  | .readSource => true
  | .writeFile _ => true
  | _ => false

def Ev.isNetOp : Ev → Bool
  | .network => true
  | _ => false

def Ev.isWriteOp : Ev → Bool
  | .writeFile _ => true
  | _ => false

def Ev.isRaiseOp : Ev → Bool
  | .raiseErr _ => true
  | _ => false

/-- The I/O trace of `MarkdownToHTML.__init__`: the template file is read
first; then the theme is validated (`ValueError` when absent from
`themes`); then the source file is stat-ed (`is_file`, raising
`FileNotFoundError` when absent); then the theme style sheet is read. -/
def initTrace (theme : List Char) (themes : List (List Char)) (sourceOk : Bool) :
    List Ev :=
  Ev.readAsset ("template.html".data) ::
    (if theme ∈ themes then
      Ev.statSource ::
        (if sourceOk then [Ev.readAsset (theme ++ (".css".data))]
         else [Ev.raiseErr ("FileNotFoundError".data)])
     else [Ev.raiseErr ("Theme not in list of valid options".data)])

/-- The I/O trace of `MarkdownToHTML.render`: read the source file
(`parse_markdown` opens it), POST to the conversion API, write the
destination file `self.html`. -/
def renderTrace (source : PPath) : List Ev :=
  [Ev.readSource, Ev.network, Ev.writeFile (destOf source)]

/-- The trace of `MarkdownToHTML(file, theme).render()` (the `__main__`
path): `render` runs only when construction raised nothing. -/
def runTrace (theme : List Char) (themes : List (List Char)) (sourceOk : Bool)
    (source : PPath) : List Ev :=
  initTrace theme themes sourceOk ++
    (if theme ∈ themes ∧ sourceOk = true then renderTrace source else [])

/-- Claim C5 (counterexample): with the theme `light` absent from the
discovered set `[dark]`, construction raises the configuration error — but
the events before the raise already contain file I/O: the template file is
read before the theme check. -/
theorem C5_counterexample :
    (runTrace ("light".data) [("dark".data)] true
          (PPath.mk [] ("doc.md".data))).takeWhile
        (fun e => !(Ev.isRaiseOp e)) =
      [Ev.readAsset ("template.html".data)] ∧
      Ev.isDiskOp (Ev.readAsset ("template.html".data)) = true := by
  decide

/-- Claim C5 (amended): an invalid theme raises the configuration error
before any network I/O and before any file is written — but after one file
read: the whole run trace is the template read followed by the raise, and
contains no network or write event at all. -/
theorem C5_amended (theme : List Char) (themes : List (List Char))
    (sourceOk : Bool) (source : PPath) (h : theme ∉ themes) :
    runTrace theme themes sourceOk source =
      [Ev.readAsset ("template.html".data),
        Ev.raiseErr ("Theme not in list of valid options".data)] ∧
      ∀ e ∈ runTrace theme themes sourceOk source,
        Ev.isNetOp e = false ∧ Ev.isWriteOp e = false := by
  have ht : runTrace theme themes sourceOk source =
      [Ev.readAsset ("template.html".data),
        Ev.raiseErr ("Theme not in list of valid options".data)] := by
    unfold runTrace initTrace
    rw [if_neg h, if_neg (fun hc => h hc.1)]
    rfl
  refine ⟨ht, ?_⟩
  rw [ht]
  intro e he
  rcases List.mem_cons.mp he with h1 | h1
  · subst h1; exact ⟨rfl, rfl⟩
  · rcases List.mem_cons.mp h1 with h2 | h2
    · subst h2; exact ⟨rfl, rfl⟩
    · simp at h2

theorem C5_amended_witness :
    (("light".data : List Char) ∉ [("dark".data)]) ∧
      runTrace ("light".data) [("dark".data)] false (PPath.mk [] ("m.md".data)) =
        [Ev.readAsset ("template.html".data),
          Ev.raiseErr ("Theme not in list of valid options".data)] :=
  ⟨by decide,
    (C5_amended ("light".data) [("dark".data)] false (PPath.mk [] ("m.md".data))
        (by decide)).1⟩

/-- Claim C9 (counterexample): a run on the source file `doc.html` writes
to `doc.html` itself: the derived destination path coincides with the
source path, so this run does mutate the source file on disk. -/
theorem C9_counterexample :
    destOf (PPath.mk [] ("doc.html".data)) = PPath.mk [] ("doc.html".data) ∧
      Ev.writeFile (PPath.mk [] ("doc.html".data)) ∈
        runTrace ("dark".data) [("dark".data)] true
          (PPath.mk [] ("doc.html".data)) := by
  decide

/-- Claim C9 (amended): the destination path is always the source
directory joined with the source stem plus `.html`, and a run never writes
to the source path — except when the source name already equals its stem
plus `.html` (an `.html` source), in which case the destination is the
source itself. -/
theorem C9_amended (theme : List Char) (themes : List (List Char))
    (sourceOk : Bool) (source : PPath) :
    destOf source = PPath.mk source.dir (pstem source.name ++ (".html".data)) ∧
      (source.name ≠ pstem source.name ++ (".html".data) →
        Ev.writeFile source ∉ runTrace theme themes sourceOk source) := by
  refine ⟨rfl, fun hne hmem => ?_⟩
  apply hne
  unfold runTrace initTrace renderTrace at hmem
  by_cases ht : theme ∈ themes
  · by_cases hs : sourceOk = true
    · simp [ht, hs] at hmem
      simpa [destOf] using congrArg PPath.name hmem
    · simp [ht, hs] at hmem
  · simp [ht] at hmem

theorem C9_amended_witness :
    destOf (PPath.mk [] ("doc.md".data)) =
        PPath.mk [] (pstem ("doc.md".data) ++ (".html".data)) ∧
      (("doc.md".data : List Char) ≠ pstem ("doc.md".data) ++ (".html".data) ∧
        Ev.writeFile (PPath.mk [] ("doc.md".data)) ∉
          runTrace ("dark".data) [("dark".data)] true
            (PPath.mk [] ("doc.md".data))) :=
  ⟨(C9_amended ("dark".data) [("dark".data)] true (PPath.mk [] ("doc.md".data))).1,
    by decide,
    (C9_amended ("dark".data) [("dark".data)] true
        (PPath.mk [] ("doc.md".data))).2 (by decide)⟩
